import Mathlib

/-!
Verification development for the rocket-pool/batch-query library.

The development shallowly embeds the two operations of the library:

* `MultiCaller.FlexibleCall` (multicaller source, second revision, lines 256-310):
  batches queued call descriptors into one `tryAggregate` invocation and
  demultiplexes the response, and
* `BalanceBatcher.GetEthBalances` (balance-batcher.go, lines 63-123):
  splits an address list into fixed-size chunks, runs one balance lookup per
  chunk, and reassembles the results in order.

The external capabilities (ABI codec, execution-client transport) are modelled
as abstract functions carried in an environment record; machine byte strings
become `List Nat`, addresses become `Nat`, and Go's `error` values become
inductive error types whose constructors mirror the `fmt.Errorf` wrappers in
the source.
-/

namespace BatchQuery

/-- Account / contract addresses (`common.Address` in the source). -/
abbrev Address := Nat

/-- Opaque byte strings (`[]byte` in the source). -/
abbrev Bytes := List Nat

/-- Balance values (`*big.Int` contents in the source). -/
abbrev Value := Nat

/-!
## MultiCaller (multicaller source, second revision)
-/

/-- Errors produced along the `FlexibleCall` path.  Each wrapping constructor
corresponds to one `fmt.Errorf("...: %w", err)` site in the source; `base`
stands for an arbitrary underlying error. -/
inductive MCErr where
  /-- An arbitrary underlying error (client, ABI, ...). -/
  | base (s : String)
  /-- Wrapper "error packing data for call [method] on contract target" (AddCall's PackFunc closure). -/
  | packData (method : String) (target : Address) (e : MCErr)
  /-- Wrapper "error packing aggregated call data" (FlexibleCall line 274). -/
  | packAggregate (e : MCErr)
  /-- Wrapper "error calling multicall contract" (FlexibleCall line 284). -/
  | transportCall (e : MCErr)
  /-- Wrapper "error unpacking aggregated response data" (FlexibleCall line 291). -/
  | unpackAggregate (e : MCErr)
  /-- Wrapper "error unpacking response for contract target, method" (FlexibleCall line 301). -/
  | unpackCall (target : Address) (method : String) (e : MCErr)
deriving DecidableEq

/-- A queued call descriptor (struct `Call`, lines 172-187).  The deferred
encode step `PackFunc` is deterministic, so it is modelled by its outcome;
the decode step `UnpackFunc` writes into a caller-owned location and reports
only success or failure, so it is modelled as `Bytes → Except MCErr Unit`. -/
structure Call where
  target : Address
  method : String
  callData : Bytes
  packF : Except MCErr Bytes
  unpackF : Bytes → Except MCErr Unit

instance : Inhabited Call := ⟨⟨0, "", [], Except.ok [], fun _ => Except.ok ()⟩⟩

/-- One entry of the decoded `tryAggregate` response (struct `CallResponse`,
lines 190-196). -/
structure CallResponse where
  status : Bool
  returnData : Bytes
deriving DecidableEq

instance : Inhabited CallResponse := ⟨⟨false, []⟩⟩

/-- The external capabilities consumed by `FlexibleCall`: the multicall ABI
packing of `tryAggregate` (line 272), the execution client's `CallContract`
(line 282, with the contract address and block number folded into the
environment), and the ABI unpacking of the aggregate response (line 289). -/
structure MCEnv where
  aggPack : Bool → List Call → Except MCErr Bytes
  transport : Bytes → Except MCErr Bytes
  aggUnpack : Bytes → Except MCErr (List CallResponse)

/-- The encode loop of `FlexibleCall` (lines 262-269): each descriptor's
`PackFunc` runs in order and its result is stored into the descriptor's
`CallData` field in place; the first failure aborts, returning the error
together with the partially updated call list (the list `mc.calls` is mutated
in place by the loop and is not cleared on this failure path). -/
def packAll : List Call → Except (MCErr × List Call) (List Call)
  | [] => Except.ok []
  | c :: rest =>
    match c.packF with
    | Except.error e => Except.error (e, c :: rest)
    | Except.ok bs =>
      let c' := { c with callData := bs }
      match packAll rest with
      | Except.error (e, rest') => Except.error (e, c' :: rest')
      | Except.ok rest' => Except.ok (c' :: rest')

/-- Total accessor for a response entry, `results[i]` with the zero response
as default (used only to state hypotheses/conclusions; the model itself uses
`results[i]?` to capture the possible out-of-range panic). -/
def respAt (results : List CallResponse) (i : Nat) : CallResponse :=
  results.getD i default

/-- Total accessor for a call descriptor. -/
def callAt (calls : List Call) (i : Nat) : Call :=
  calls.getD i default

/-- Outcome of the result-demultiplexing loop of `FlexibleCall`
(lines 294-305).  `ok` carries the success flags in enqueue order, `fail`
carries the wrapped per-descriptor decode error, and `oob` marks the
out-of-range access `results[i]` that Go would turn into a runtime panic.
Each constructor also carries the trace of descriptor indices whose
`UnpackFunc` was invoked, in order. -/
inductive LoopOut where
  | ok (flags : List Bool) (trace : List Nat)
  | fail (e : MCErr) (trace : List Nat)
  | oob (trace : List Nat)

/-- The demultiplexing loop of `FlexibleCall` (lines 294-305): for each
descriptor in order, read `results[i]` (out of range is a panic, modelled as
`oob`); when its status flag is true invoke its decode step, a failure being
fatal; record the flag. -/
def decodeLoop (results : List CallResponse) : List Call → Nat → LoopOut
  | [], _ => LoopOut.ok [] []
  | c :: rest, i =>
    match results[i]? with
    | none => LoopOut.oob []
    | some r =>
      if r.status then
        match c.unpackF r.returnData with
        | Except.error e => LoopOut.fail (MCErr.unpackCall c.target c.method e) [i]
        | Except.ok _ =>
          match decodeLoop results rest (i + 1) with
          | LoopOut.ok flags tr => LoopOut.ok (true :: flags) (i :: tr)
          | LoopOut.fail e tr => LoopOut.fail e (i :: tr)
          | LoopOut.oob tr => LoopOut.oob (i :: tr)
      else
        match decodeLoop results rest (i + 1) with
        | LoopOut.ok flags tr => LoopOut.ok (false :: flags) tr
        | LoopOut.fail e tr => LoopOut.fail e tr
        | LoopOut.oob tr => LoopOut.oob tr

/-- Whether a loop outcome is the out-of-range panic. -/
def LoopOut.isOob : LoopOut → Bool
  | LoopOut.oob _ => true
  | _ => false

/-- The observable outcome of one `FlexibleCall` invocation: the returned
success-flag list, or the returned error, or the runtime panic caused by an
out-of-range `results[i]` access. -/
inductive FlexOutcome where
  | ok (flags : List Bool)
  | err (e : MCErr)
  | oob
deriving DecidableEq

/-- Everything observable about one `FlexibleCall` invocation: its outcome,
the state of `mc.calls` when it returns, how many times the transport
capability (`client.CallContract`) was invoked, and which descriptors'
decode steps ran. -/
structure FlexResult where
  outcome : FlexOutcome
  callsAfter : List Call
  transportCount : Nat
  decodeTrace : List Nat

/-- The operation `MultiCaller.FlexibleCall` (lines 256-310).  Mirrors the source line by
line: empty-queue fast path (257-259); encode loop (262-269), whose failure
returns without clearing the queue; `tryAggregate` packing (271-275),
transport invocation (277-285) and aggregate unpacking (287-292), whose
failures also return without clearing the queue; then the demultiplexing
loop (294-305), which clears the queue both on a per-descriptor decode
failure (line 300) and on reaching the end (line 308). -/
def flexibleCall (env : MCEnv) (requireSuccess : Bool) (calls : List Call) : FlexResult :=
  if calls.length = 0 then ⟨FlexOutcome.ok [], calls, 0, []⟩
  else
    match packAll calls with
    | Except.error (e, calls') => ⟨FlexOutcome.err e, calls', 0, []⟩
    | Except.ok packed =>
      match env.aggPack requireSuccess packed with
      | Except.error e => ⟨FlexOutcome.err (MCErr.packAggregate e), packed, 0, []⟩
      | Except.ok callData =>
        match env.transport callData with
        | Except.error e => ⟨FlexOutcome.err (MCErr.transportCall e), packed, 1, []⟩
        | Except.ok resp =>
          match env.aggUnpack resp with
          | Except.error e => ⟨FlexOutcome.err (MCErr.unpackAggregate e), packed, 1, []⟩
          | Except.ok results =>
            match decodeLoop results packed 0 with
            | LoopOut.ok flags tr => ⟨FlexOutcome.ok flags, [], 1, tr⟩
            | LoopOut.fail e tr => ⟨FlexOutcome.err e, [], 1, tr⟩
            | LoopOut.oob tr => ⟨FlexOutcome.oob, packed, 1, tr⟩

/-!
## BalanceBatcher (balance-batcher.go)
-/

/-- Errors produced along the `GetEthBalances` path.  Each wrapping
constructor corresponds to one `fmt.Errorf` site in balance-batcher.go;
`integrityLen` and `integrityNil` are the two integrity violations built at
lines 104 and 108. -/
inductive BBErr where
  /-- An arbitrary underlying error (client, ABI, ...). -/
  | base (s : String)
  /-- Wrapper "error creating calldata for balances" (line 84). -/
  | packBalances (e : BBErr)
  /-- Wrapper "error calling balances" (line 94). -/
  | callBalances (e : BBErr)
  /-- Wrapper "error unpacking balances response" (line 101). -/
  | unpackBalances (e : BBErr)
  /-- Violation "received got balances which mismatches query batch size expected" (line 104). -/
  | integrityLen (got expected : Nat)
  /-- Violation "received nil balance for address addr" (line 108). -/
  | integrityNil (addr : Address)
  /-- Wrapper "error getting balances" (line 119). -/
  | getBalances (e : BBErr)
deriving DecidableEq

/-- The external capabilities consumed by `GetEthBalances`: the balance
batcher ABI packing of `balances` (line 82), the execution client's
`CallContract` (line 92, contract address and block number folded in), and
the ABI unpacking of the response (line 99).  Decoded balances are
`*big.Int` pointers that may be nil, hence `Option Value`. -/
structure BBEnv where
  pack : List Address → List Address → Except BBErr Bytes
  transport : Bytes → Except BBErr Bytes
  unpack : Bytes → Except BBErr (List (Option Value))

/-- The nil-checking walk over a chunk's decoded balances (lines 106-111):
the first nil entry is reported with the sub-address at the same position
(`subAddresses[j]`); the values are collected for the disjoint array writes
`balances[i+j] = balance`. -/
def collectBalances : List Address → List (Option Value) → Except BBErr (List Value)
  | _, [] => Except.ok []
  | addrs, none :: _ => Except.error (BBErr.integrityNil (addrs.headD 0))
  | addrs, some b :: vs =>
    match collectBalances addrs.tail vs with
    | Except.error e => Except.error e
    | Except.ok rest => Except.ok (b :: rest)

/-- One chunk unit of `GetEthBalances` (the closure passed to `wg.Go`,
lines 77-114): pack the `balances` call for the sub-address list against the
single empty placeholder token, invoke the transport, unpack, then validate
the decoded length against the chunk's address count and reject nil values. -/
def chunkUnit (env : BBEnv) (sub : List Address) : Except BBErr (List Value) :=
  match env.pack sub [0] with
  | Except.error e => Except.error (BBErr.packBalances e)
  | Except.ok cd =>
    match env.transport cd with
    | Except.error e => Except.error (BBErr.callBalances e)
    | Except.ok resp =>
      match env.unpack resp with
      | Except.error e => Except.error (BBErr.unpackBalances e)
      | Except.ok vals =>
        if vals.length ≠ sub.length then
          Except.error (BBErr.integrityLen vals.length sub.length)
        else collectBalances sub vals

/-- The chunking loop of `GetEthBalances` (lines 70-75) for a positive chunk
size: starting at offset `off`, the loop slices `addresses[i:max]` with
`max = min (i+C) count` and advances `i` by `C`; each resulting unit is the
pair (offset, sub-address list).  A chunk size of zero is mapped to the empty
unit list here to keep the function total; the loop's actual index behaviour
for non-positive chunk sizes (divergence at zero, 64-bit wraparound for
negative sizes) is modelled separately by `loopIndices`. -/
def goChunks (C : Nat) (l : List Address) (off : Nat) : List (Nat × List Address) :=
  if h : l = [] ∨ C = 0 then []
  else (off, l.take C) :: goChunks C (l.drop C) (off + C)
termination_by l.length
decreasing_by
  simp only [not_or] at h
  have hl : l.length ≠ 0 := fun hh => h.1 (List.length_eq_zero.mp hh)
  simp only [List.length_drop]
  omega

/-- The per-chunk result writes `balances[i+j] = balance` (line 110): write
the chunk's values into the shared result array starting at the chunk's
original offset. -/
def writeChunk (arr : List (Option Value)) (off : Nat) : List Value → List (Option Value)
  | [] => arr
  | v :: vs => writeChunk (arr.set off (some v)) (off + 1) vs

/-- Runs every chunk unit and performs its disjoint writes.  The units write
into pairwise disjoint index ranges of the result array, so performing the
writes in chunk order is observationally equal to any goroutine completion
order. -/
def runAll (env : BBEnv) : List (Nat × List Address) → List (Option Value) → Except BBErr (List (Option Value))
  | [], arr => Except.ok arr
  | (off, sub) :: rest, arr =>
    match chunkUnit env sub with
    | Except.error e => Except.error e
    | Except.ok vals => runAll env rest (writeChunk arr off vals)

/-- The join `errgroup.Wait` (line 117) surfaces the error of the first unit, in
goroutine completion order, to return a non-nil error; `schedule` lists the
chunk indices in that completion order. -/
def firstErrSched (outcome : Nat → Except BBErr (List Value)) : List Nat → Option BBErr
  | [] => none
  | k :: rest =>
    match outcome k with
    | Except.error e => some e
    | Except.ok _ => firstErrSched outcome rest

/-- Total accessor for a chunk unit. -/
def unitAt (units : List (Nat × List Address)) (k : Nat) : Nat × List Address :=
  units.getD k (0, [])

/-- The operation `BalanceBatcher.GetEthBalances` (lines 63-123).  The chunk units are
independent pure computations; `schedule` is the goroutine completion order,
which determines the single error kept by `errgroup.Wait` (wrapped as
"error getting balances", line 119).  When no scheduled unit fails, the
result array is assembled from the units' disjoint writes (write order is
immaterial, so they are performed in chunk order). -/
def getEthBalances (env : BBEnv) (C : Nat) (addresses : List Address)
    (schedule : List Nat) : Except BBErr (List (Option Value)) :=
  let units := goChunks C addresses 0
  match firstErrSched (fun k => chunkUnit env (unitAt units k).2) schedule with
  | some e => Except.error (BBErr.getBalances e)
  | none =>
    match runAll env units (List.replicate addresses.length none) with
    | Except.error e => Except.error (BBErr.getBalances e)
    | Except.ok arr => Except.ok arr

/-- Go's 64-bit `int` addition result, reduced to the representable range
`[-2^63, 2^63)` by two's-complement wraparound (the literals are `2^63` and
`2^64`).  Signed overflow in Go wraps, so the index update `i += C` of the
chunking loop is `wrap64 (i + C)`. -/
def wrap64 (x : Int) : Int :=
  (x + 9223372036854775808) % 18446744073709551616 - 9223372036854775808

/-- The bare index progression of the chunking loop
`for i := 0; i < count; i += C` (line 70), with Go's wrapping 64-bit `int`
arithmetic modelled by `wrap64`.  `fuel` bounds the number of iterations
observed: `none` means the loop is still running after `fuel` iterations,
`some out` means it terminated within `fuel` iterations having visited the
indices `out`. -/
def loopIndices (fuel : Nat) (C count : Int) (i : Int) : Option (List Int) :=
  match fuel with
  | 0 => if i < count then none else some []
  | fuel + 1 =>
    if i < count then
      (loopIndices fuel C count (wrap64 (i + C))).map (fun out => i :: out)
    else some []

/-!
### Concrete instances used in witnesses and counterexamples
-/

/-- A decode step that always succeeds. -/
def okUnpack : Bytes → Except MCErr Unit := fun _ => Except.ok ()

/-- A decode step that always fails. -/
def badUnpack : Bytes → Except MCErr Unit := fun _ => Except.error (MCErr.base "u")

/-- Aggregate response used by the order/flags witness: statuses true, false, true. -/
def w4Results : List CallResponse := [⟨true, [7]⟩, ⟨false, []⟩, ⟨true, [9]⟩]

/-- Three-descriptor environment whose aggregate response is `w4Results`. -/
def w4Env : MCEnv :=
  ⟨fun _ _ => Except.ok [5], fun _ => Except.ok [6], fun _ => Except.ok w4Results⟩

/-- The three queued descriptors of the order/flags witness. -/
def w4Call (k : Nat) : Call := ⟨k, "m", [], Except.ok [k], okUnpack⟩

/-- Descriptor `w4Call k` after the encode loop filled in its call data. -/
def w4Packed (k : Nat) : Call := ⟨k, "m", [k], Except.ok [k], okUnpack⟩

/-- A descriptor whose decode step fails. -/
def w6Call : Call := ⟨3, "bad", [], Except.ok [5], badUnpack⟩

/-- Descriptor `w6Call` after the encode loop filled in its call data. -/
def w6Packed : Call := ⟨3, "bad", [5], Except.ok [5], badUnpack⟩

/-- Environment whose aggregate response marks the single descriptor successful. -/
def w6Env : MCEnv :=
  ⟨fun _ _ => Except.ok [1], fun _ => Except.ok [2], fun _ => Except.ok [⟨true, [7]⟩]⟩

/-- A descriptor whose encode step fails. -/
def w7Call : Call := ⟨2, "p", [], Except.error (MCErr.base "pack"), okUnpack⟩

/-- Environment returning a well-formed but empty aggregate response. -/
def w9Env : MCEnv :=
  ⟨fun _ _ => Except.ok [1], fun _ => Except.ok [2], fun _ => Except.ok []⟩

/-- An ordinary descriptor that encodes fine. -/
def w9Call : Call := ⟨1, "m", [], Except.ok [4], okUnpack⟩

/-- Descriptor `w9Call` after the encode loop filled in its call data. -/
def w9Packed : Call := ⟨1, "m", [4], Except.ok [4], okUnpack⟩

/-- Environment whose transport always fails. -/
def cexEnv : MCEnv :=
  ⟨fun _ _ => Except.ok [1], fun _ => Except.error (MCErr.base "down"), fun _ => Except.ok []⟩

/-- An ordinary descriptor queued against the failing transport. -/
def cexCall : Call := ⟨7, "m", [], Except.ok [1], okUnpack⟩

/-- Descriptor `cexCall` after the encode loop filled in its call data. -/
def cexPacked : Call := ⟨7, "m", [1], Except.ok [1], okUnpack⟩

/-- Identity-balance environment: the packed call data is the queried
sub-address list itself, the transport echoes it back, and unpacking wraps
each entry in `some`. -/
def wbEnv : BBEnv :=
  ⟨fun sub _ => Except.ok sub, fun cd => Except.ok cd,
    fun resp => Except.ok (resp.map some)⟩

/-- Balance environment whose transport always fails. -/
def wbFailEnv : BBEnv :=
  ⟨fun sub _ => Except.ok sub, fun _ => Except.error (BBErr.base "net"),
    fun resp => Except.ok (resp.map some)⟩

/-- Balance environment that decodes to a response with a nil balance in the
second position. -/
def wbNilEnv : BBEnv :=
  ⟨fun _ _ => Except.ok [], fun _ => Except.ok [],
    fun _ => Except.ok [some 5, none]⟩

/-!
## Theorems

### Helper lemmas about the encode loop
-/

/-- On the failure path the encode loop returns the call list with the same
length: `mc.calls` is only mutated entrywise, never shrunk or grown. -/
theorem packAll_error_length :
    ∀ (calls : List Call) (e : MCErr) (calls' : List Call),
      packAll calls = Except.error (e, calls') → calls'.length = calls.length := by
  intro calls
  induction calls with
  | nil => intro e calls' h; simp [packAll] at h
  | cons c rest ih =>
    intro e calls' h
    simp only [packAll] at h
    cases hp : c.packF with
    | error e0 =>
      rw [hp] at h
      cases h
      rfl
    | ok bs =>
      rw [hp] at h
      cases hr : packAll rest with
      | error p =>
        obtain ⟨e1, rest'⟩ := p
        rw [hr] at h
        cases h
        have hlen := ih _ _ hr
        simp [hlen]
      | ok rest' =>
        rw [hr] at h
        cases h

/-- On the success path the encode loop preserves each descriptor's target,
method label and decode step (it only fills in the `CallData` field). -/
theorem packAll_ok_spec :
    ∀ (calls packed : List Call), packAll calls = Except.ok packed →
      List.Forall₂
        (fun c c' => c'.target = c.target ∧ c'.method = c.method ∧ c'.unpackF = c.unpackF)
        calls packed := by
  intro calls
  induction calls with
  | nil => intro packed h; cases h; exact List.Forall₂.nil
  | cons c rest ih =>
    intro packed h
    simp only [packAll] at h
    cases hp : c.packF with
    | error e0 => rw [hp] at h; cases h
    | ok bs =>
      rw [hp] at h
      cases hr : packAll rest with
      | error p => rw [hr] at h; cases h
      | ok rest' =>
        rw [hr] at h
        cases h
        exact List.Forall₂.cons ⟨rfl, rfl, rfl⟩ (ih rest' hr)

/-- On the success path the encode loop preserves the queue length. -/
theorem packAll_ok_length (calls packed : List Call)
    (h : packAll calls = Except.ok packed) : packed.length = calls.length :=
  (packAll_ok_spec calls packed h).length_eq.symm

/-- If every descriptor's encode step succeeds, the encode loop succeeds. -/
theorem packAll_ok_of_forall :
    ∀ (calls : List Call), (∀ x ∈ calls, ∃ bs, x.packF = Except.ok bs) →
      ∃ packed, packAll calls = Except.ok packed := by
  intro calls
  induction calls with
  | nil => intro _; exact ⟨[], rfl⟩
  | cons c rest ih =>
    intro h
    obtain ⟨bs, hbs⟩ := h c (List.mem_cons_self c rest)
    obtain ⟨rest', hrest⟩ := ih fun x hx => h x (List.mem_cons_of_mem c hx)
    refine ⟨{ c with callData := bs } :: rest', ?_⟩
    simp only [packAll, hbs, hrest]

/-- If the encode steps of a prefix succeed and the next descriptor's encode
step fails, the encode loop fails with exactly that error, and the returned
list still has the full length. -/
theorem packAll_split_error (pre : List Call) (c : Call) (post : List Call) (e : MCErr)
    (hpre : ∀ x ∈ pre, ∃ bs, x.packF = Except.ok bs)
    (hc : c.packF = Except.error e) :
    ∃ calls', packAll (pre ++ c :: post) = Except.error (e, calls') ∧
      calls'.length = (pre ++ c :: post).length := by
  induction pre with
  | nil =>
    refine ⟨c :: post, ?_, rfl⟩
    simp only [List.nil_append, packAll, hc]
  | cons p pre' ih =>
    obtain ⟨bs, hbs⟩ := hpre p (List.mem_cons_self p pre')
    obtain ⟨calls', h1, h2⟩ := ih fun x hx => hpre x (List.mem_cons_of_mem p hx)
    refine ⟨{ p with callData := bs } :: calls', ?_, ?_⟩
    · show packAll (p :: (pre' ++ c :: post)) = _
      simp [packAll, hbs, h1]
    · simpa using h2

/-- Pointwise form of `packAll_ok_spec`. -/
theorem packAll_callAt (calls packed : List Call) (h : packAll calls = Except.ok packed)
    (j : Nat) (hj : j < calls.length) :
    (callAt packed j).target = (callAt calls j).target ∧
    (callAt packed j).method = (callAt calls j).method ∧
    (callAt packed j).unpackF = (callAt calls j).unpackF := by
  have hf := packAll_ok_spec calls packed h
  rw [List.forall₂_iff_get] at hf
  obtain ⟨hlen, hget⟩ := hf
  have hj2 : j < packed.length := by omega
  have hR := hget j hj hj2
  rw [callAt, callAt, List.getD_eq_getElem calls default hj,
    List.getD_eq_getElem packed default hj2]
  simpa [List.get_eq_getElem] using hR

/-- Indexing a split list at the split point. -/
theorem callAt_append_length (pre : List Call) (c : Call) (post : List Call) :
    callAt (pre ++ c :: post) pre.length = c := by
  induction pre with
  | nil => rfl
  | cons p pre' ih => simpa [callAt, List.getD_cons_succ] using ih

/-!
### Helper lemmas about the demultiplexing loop
-/

/-- In-bounds bridging between `results[i]?` and the total accessor. -/
theorem respAt_getElem? (results : List CallResponse) (i : Nat) (h : i < results.length) :
    results[i]? = some (respAt results i) := by
  simp [respAt, List.getD_eq_getElem?_getD, List.getElem?_eq_getElem h]

/-- When the decoded response covers every remaining descriptor and every
successful entry decodes, the loop finishes with one status flag per
descriptor, in order, and invokes exactly the decode steps of the successful
entries. -/
theorem decodeLoop_complete (results : List CallResponse) :
    ∀ (calls : List Call) (i : Nat),
      i + calls.length ≤ results.length →
      (∀ j, j < calls.length → (respAt results (i + j)).status = true →
        (callAt calls j).unpackF (respAt results (i + j)).returnData = Except.ok ()) →
      decodeLoop results calls i =
        LoopOut.ok ((List.range' i calls.length).map fun k => (respAt results k).status)
          ((List.range' i calls.length).filter fun k => (respAt results k).status) := by
  intro calls
  induction calls with
  | nil =>
    intro i _ _
    simp [decodeLoop, List.range']
  | cons c rest ih =>
    intro i hlen hdec
    have hi : i < results.length := by
      simp only [List.length_cons] at hlen; omega
    have hsome := respAt_getElem? results i hi
    have hrec := ih (i + 1)
      (by simp only [List.length_cons] at hlen; omega)
      (by
        intro j hj hst
        have h0 := hdec (j + 1) (by simp only [List.length_cons]; omega)
        rw [show i + (j + 1) = i + 1 + j by omega] at h0
        simpa [callAt, List.getD_cons_succ] using h0 hst)
    cases hst : (respAt results i).status with
    | true =>
      have hun : c.unpackF (respAt results i).returnData = Except.ok () := by
        have h0 := hdec 0 (by simp) (by simpa using hst)
        simpa [callAt] using h0
      simp only [decodeLoop, hsome, hst, if_true, hun, hrec,
        List.length_cons, List.range'_succ, List.map_cons, List.filter_cons]
    | false =>
      simp only [decodeLoop, hsome, hst, Bool.false_eq_true, if_false, hrec,
        List.length_cons, List.range'_succ, List.map_cons, List.filter_cons]

/-- When a prefix of descriptors decodes fine but the next successful
descriptor's decode step fails, the loop stops with that descriptor's
wrapped error; the decode trace covers only that descriptor and the
successful ones before it. -/
theorem decodeLoop_fail_split (results : List CallResponse) (c : Call) (e : MCErr) :
    ∀ (pre : List Call) (post : List Call) (i : Nat),
      i + pre.length < results.length →
      (∀ j, j < pre.length → (respAt results (i + j)).status = true →
        (callAt pre j).unpackF (respAt results (i + j)).returnData = Except.ok ()) →
      (respAt results (i + pre.length)).status = true →
      c.unpackF (respAt results (i + pre.length)).returnData = Except.error e →
      decodeLoop results (pre ++ c :: post) i =
        LoopOut.fail (MCErr.unpackCall c.target c.method e)
          ((List.range' i (pre.length + 1)).filter fun k => (respAt results k).status) := by
  intro pre
  induction pre with
  | nil =>
    intro post i hlen _ hst hfail
    have hi : i < results.length := by simpa using hlen
    have hsome := respAt_getElem? results i hi
    rw [show i + List.length [] = i by simp] at hst hfail
    simp only [List.nil_append, decodeLoop, hsome, hst, if_true, hfail,
      List.length_nil, List.range'_succ, List.range', List.filter_cons, hst,
      List.filter_nil]
  | cons p pre' ih =>
    intro post i hlen hpre hst hfail
    have hi : i < results.length := by
      simp only [List.length_cons] at hlen; omega
    have hsome := respAt_getElem? results i hi
    have hrec := ih post (i + 1)
      (by simp only [List.length_cons] at hlen; omega)
      (by
        intro j hj h0
        have h1 := hpre (j + 1) (by simp only [List.length_cons]; omega)
        rw [show i + (j + 1) = i + 1 + j by omega] at h1
        simpa [callAt, List.getD_cons_succ] using h1 h0)
      (by rw [show i + 1 + pre'.length = i + (p :: pre').length by simp; omega] at *; exact hst)
      (by rw [show i + 1 + pre'.length = i + (p :: pre').length by simp; omega] at *; exact hfail)
    cases hst0 : (respAt results i).status with
    | true =>
      have hun : p.unpackF (respAt results i).returnData = Except.ok () := by
        have h0 := hpre 0 (by simp) (by simpa using hst0)
        simpa [callAt] using h0
      rw [List.cons_append]
      simp only [decodeLoop, hsome, hst0, if_true, hun, List.append_eq, hrec]
      have hr : List.range' i ((p :: pre').length + 1) =
          i :: List.range' (i + 1) (pre'.length + 1) := by
        simp [List.range'_succ]
      rw [hr, List.filter_cons]
      simp [hst0]
    | false =>
      rw [List.cons_append]
      simp only [decodeLoop, hsome, hst0, Bool.false_eq_true, if_false, List.append_eq, hrec]
      have hr : List.range' i ((p :: pre').length + 1) =
          i :: List.range' (i + 1) (pre'.length + 1) := by
        simp [List.range'_succ]
      rw [hr, List.filter_cons]
      simp [hst0]

/-- When the decoded response is `k` entries long with `k` smaller than the
number of remaining descriptors, and the covered entries decode fine, the
loop reads past the end of the response: the out-of-range access happens
instead of an error return. -/
theorem decodeLoop_oob_of_short (results : List CallResponse) :
    ∀ (k : Nat) (calls : List Call) (i : Nat),
      results.length = i + k → k < calls.length →
      (∀ j, j < k → (respAt results (i + j)).status = true →
        (callAt calls j).unpackF (respAt results (i + j)).returnData = Except.ok ()) →
      decodeLoop results calls i =
        LoopOut.oob ((List.range' i k).filter fun x => (respAt results x).status) := by
  intro k
  induction k with
  | zero =>
    intro calls i hlen hk _
    cases calls with
    | nil => simp at hk
    | cons c rest =>
      have hnone : results[i]? = none := by
        rw [List.getElem?_eq_none]; omega
      simp [decodeLoop, hnone, List.range']
  | succ k ih =>
    intro calls i hlen hk hdec
    cases calls with
    | nil => simp at hk
    | cons c rest =>
      have hi : i < results.length := by omega
      have hsome := respAt_getElem? results i hi
      have hrec := ih rest (i + 1) (by omega)
        (by simp only [List.length_cons] at hk; omega)
        (by
          intro j hj h0
          have h1 := hdec (j + 1) (by omega)
          rw [show i + (j + 1) = i + 1 + j by omega] at h1
          simpa [callAt, List.getD_cons_succ] using h1 h0)
      cases hst : (respAt results i).status with
      | true =>
        have hun : c.unpackF (respAt results i).returnData = Except.ok () := by
          have h0 := hdec 0 (by omega) (by simpa using hst)
          simpa [callAt] using h0
        simp only [decodeLoop, hsome, hst, if_true, hun, hrec]
        rw [List.range'_succ, List.filter_cons]
        simp [hst]
      | false =>
        simp only [decodeLoop, hsome, hst, Bool.false_eq_true, if_false, hrec]
        rw [List.range'_succ, List.filter_cons]
        simp [hst]

/-- When the decoded response covers every remaining descriptor, the loop
never reaches an out-of-range access. -/
theorem decodeLoop_not_oob (results : List CallResponse) :
    ∀ (calls : List Call) (i : Nat),
      i + calls.length ≤ results.length →
      (decodeLoop results calls i).isOob = false := by
  intro calls
  induction calls with
  | nil => intro i _; simp [decodeLoop, LoopOut.isOob]
  | cons c rest ih =>
    intro i hlen
    have hi : i < results.length := by
      simp only [List.length_cons] at hlen; omega
    have hsome := respAt_getElem? results i hi
    have hrec := ih (i + 1) (by simp only [List.length_cons] at hlen; omega)
    cases hst : (respAt results i).status with
    | true =>
      cases hu : c.unpackF (respAt results i).returnData with
      | error e => simp [decodeLoop, hsome, hst, hu, LoopOut.isOob]
      | ok u =>
        cases u
        cases hres : decodeLoop results rest (i + 1) with
        | ok flags tr => simp [decodeLoop, hsome, hst, hu, hres, LoopOut.isOob]
        | fail e tr => simp [decodeLoop, hsome, hst, hu, hres, LoopOut.isOob]
        | oob tr => rw [hres] at hrec; simp [LoopOut.isOob] at hrec
    | false =>
      cases hres : decodeLoop results rest (i + 1) with
      | ok flags tr => simp [decodeLoop, hsome, hst, hres, LoopOut.isOob]
      | fail e tr => simp [decodeLoop, hsome, hst, hres, LoopOut.isOob]
      | oob tr => rw [hres] at hrec; simp [LoopOut.isOob] at hrec

/-- C3: executing with an empty queue performs zero transport invocations and
returns an empty success-flag list with no error, for every environment and
every `requireSuccess` flag (FlexibleCall lines 257-259). -/
theorem flexibleCall_empty_queue (env : MCEnv) (requireSuccess : Bool) :
    flexibleCall env requireSuccess [] = ⟨FlexOutcome.ok [], [], 0, []⟩ := rfl

/-- C4: for a non-empty queue whose round-trip completes (the decoded
aggregate response covers every descriptor) and whose successful entries all
decode, `FlexibleCall` returns one success flag per descriptor in enqueue
order, exactly one transport invocation happens, and a descriptor's decode
step is invoked if and only if its success flag is true (the decode trace is
exactly the list of positions whose status flag is true). -/
theorem flexibleCall_flags_in_order (env : MCEnv) (requireSuccess : Bool)
    (calls packed : List Call) (cd resp : Bytes) (results : List CallResponse)
    (hne : calls ≠ [])
    (hpack : packAll calls = Except.ok packed)
    (hagg : env.aggPack requireSuccess packed = Except.ok cd)
    (htr : env.transport cd = Except.ok resp)
    (hun : env.aggUnpack resp = Except.ok results)
    (hlen : calls.length ≤ results.length)
    (hdec : ∀ j, j < calls.length → (respAt results j).status = true →
      (callAt calls j).unpackF (respAt results j).returnData = Except.ok ()) :
    flexibleCall env requireSuccess calls =
      ⟨FlexOutcome.ok ((List.range calls.length).map fun k => (respAt results k).status),
        [], 1, (List.range calls.length).filter fun k => (respAt results k).status⟩ := by
  have hplen := packAll_ok_length calls packed hpack
  have hloop := decodeLoop_complete results packed 0
    (by omega)
    (by
      intro j hj hst
      rw [Nat.zero_add] at hst ⊢
      have hj' : j < calls.length := by omega
      rw [(packAll_callAt calls packed hpack j hj').2.2]
      exact hdec j hj' hst)
  have hne' : ¬ calls.length = 0 := fun h0 => hne (List.length_eq_zero.mp h0)
  simp only [flexibleCall, if_neg hne', hpack, hagg, htr, hun, hloop]
  rw [hplen, List.range_eq_range']

/-- C4 witness: with three descriptors of which only the second fails under
`requireSuccess = false`, the result is `[true, false, true]` and only the
first and third decode steps run. -/
theorem flexibleCall_flags_in_order_witness :
    flexibleCall w4Env false [w4Call 0, w4Call 1, w4Call 2] =
      ⟨FlexOutcome.ok [true, false, true], [], 1, [0, 2]⟩ := by
  have h := flexibleCall_flags_in_order w4Env false [w4Call 0, w4Call 1, w4Call 2]
    [w4Packed 0, w4Packed 1, w4Packed 2] [5] [6] w4Results
    (by simp) rfl rfl rfl rfl (by rfl)
    (by
      intro j hj hst
      have hj3 : j < 3 := by simpa using hj
      interval_cases j <;> rfl)
  exact h.trans rfl

/-- C6: when the aggregate round-trip and the aggregate decode succeed but
the first failing decode step belongs to a successful descriptor at position
`pre.length`, the whole operation returns the error outcome naming that
descriptor's target address and method label (no flag list is produced),
the queue is cleared, and no decode step after position `pre.length` runs
(the trace stays within the first `pre.length + 1` positions). -/
theorem flexibleCall_decode_failure (env : MCEnv) (requireSuccess : Bool)
    (calls packed pre post : List Call) (c : Call) (cd resp : Bytes)
    (results : List CallResponse) (e : MCErr)
    (hpack : packAll calls = Except.ok packed)
    (hsplit : packed = pre ++ c :: post)
    (hagg : env.aggPack requireSuccess packed = Except.ok cd)
    (htr : env.transport cd = Except.ok resp)
    (hun : env.aggUnpack resp = Except.ok results)
    (hlen : pre.length < results.length)
    (hpre : ∀ j, j < pre.length → (respAt results j).status = true →
      (callAt pre j).unpackF (respAt results j).returnData = Except.ok ())
    (hst : (respAt results pre.length).status = true)
    (hfail : c.unpackF (respAt results pre.length).returnData = Except.error e) :
    flexibleCall env requireSuccess calls =
      ⟨FlexOutcome.err (MCErr.unpackCall c.target c.method e), [], 1,
        (List.range (pre.length + 1)).filter fun k => (respAt results k).status⟩ ∧
    c.target = (callAt calls pre.length).target ∧
    c.method = (callAt calls pre.length).method := by
  have hplen := packAll_ok_length calls packed hpack
  have hcl : calls.length = pre.length + 1 + post.length := by
    rw [← hplen, hsplit]; simp; omega
  have hloop := decodeLoop_fail_split results c e pre post 0
    (by omega)
    (by
      intro j hj h0
      rw [Nat.zero_add] at h0 ⊢
      exact hpre j hj h0)
    (by rw [Nat.zero_add]; exact hst)
    (by rw [Nat.zero_add]; exact hfail)
  rw [← hsplit] at hloop
  have hne' : ¬ calls.length = 0 := by omega
  refine ⟨?_, ?_, ?_⟩
  · simp only [flexibleCall, if_neg hne', hpack, hagg, htr, hun, hloop]
    rw [List.range_eq_range']
  · have hk := (packAll_callAt calls packed hpack pre.length (by omega)).1
    rw [hsplit, callAt_append_length] at hk
    exact hk
  · have hk := (packAll_callAt calls packed hpack pre.length (by omega)).2.1
    rw [hsplit, callAt_append_length] at hk
    exact hk

/-- C6 witness: a single successful descriptor whose decode step fails makes
the whole call fail with the wrapped target/method error, clears the queue,
and traces only that one decode invocation. -/
theorem flexibleCall_decode_failure_witness :
    flexibleCall w6Env false [w6Call] =
      ⟨FlexOutcome.err (MCErr.unpackCall 3 "bad" (MCErr.base "u")), [], 1, [0]⟩ := by
  have h := flexibleCall_decode_failure w6Env false [w6Call] [w6Packed] [] []
    w6Packed [1] [2] [⟨true, [7]⟩] (MCErr.base "u")
    rfl rfl rfl rfl rfl
    (by simp)
    (by intro j hj h0; exact absurd hj (by simp))
    rfl rfl
  exact h.1.trans rfl

/-- C7: if a descriptor's encode step fails, `FlexibleCall` returns exactly
that error and the transport capability is never invoked: the failure aborts
the whole operation before any dispatch. -/
theorem flexibleCall_encode_failure (env : MCEnv) (requireSuccess : Bool)
    (pre : List Call) (c : Call) (post : List Call) (e : MCErr)
    (hpre : ∀ x ∈ pre, ∃ bs, x.packF = Except.ok bs)
    (hc : c.packF = Except.error e) :
    (flexibleCall env requireSuccess (pre ++ c :: post)).outcome = FlexOutcome.err e ∧
    (flexibleCall env requireSuccess (pre ++ c :: post)).transportCount = 0 := by
  obtain ⟨calls', h1, _⟩ := packAll_split_error pre c post e hpre hc
  have hne' : ¬ (pre ++ c :: post).length = 0 := by simp
  constructor <;> simp only [flexibleCall, if_neg hne', h1]

/-- C7 witness: a single descriptor with a failing encode step yields that
error with zero transport invocations. -/
theorem flexibleCall_encode_failure_witness :
    (flexibleCall w9Env false [w7Call]).outcome = FlexOutcome.err (MCErr.base "pack") ∧
    (flexibleCall w9Env false [w7Call]).transportCount = 0 := by
  have h := flexibleCall_encode_failure w9Env false [] w7Call [] (MCErr.base "pack")
    (by intro x hx; exact absurd hx (by simp)) rfl
  exact h

/-- C9: the demultiplexing loop indexes the decoded aggregate response at
every descriptor position without a length check.  If the decoded response
is shorter than the queue (and the covered entries decode fine), the loop
reaches an out-of-range access — the `oob` outcome, a runtime panic in Go —
rather than an error return; if the response covers every descriptor, the
access stays in bounds and the panic outcome is impossible. -/
theorem flexibleCall_short_response (env : MCEnv) (requireSuccess : Bool)
    (calls packed : List Call) (cd resp : Bytes) (results : List CallResponse)
    (hne : calls ≠ [])
    (hpack : packAll calls = Except.ok packed)
    (hagg : env.aggPack requireSuccess packed = Except.ok cd)
    (htr : env.transport cd = Except.ok resp)
    (hun : env.aggUnpack resp = Except.ok results) :
    (results.length < calls.length →
      (∀ j, j < results.length → (respAt results j).status = true →
        (callAt calls j).unpackF (respAt results j).returnData = Except.ok ()) →
      (flexibleCall env requireSuccess calls).outcome = FlexOutcome.oob) ∧
    (calls.length ≤ results.length →
      (flexibleCall env requireSuccess calls).outcome ≠ FlexOutcome.oob) := by
  have hplen := packAll_ok_length calls packed hpack
  have hne' : ¬ calls.length = 0 := fun h0 => hne (List.length_eq_zero.mp h0)
  constructor
  · intro hshort hdec
    have hloop := decodeLoop_oob_of_short results results.length packed 0
      (by omega) (by omega)
      (by
        intro j hj h0
        rw [Nat.zero_add] at h0 ⊢
        have hj' : j < calls.length := by omega
        rw [(packAll_callAt calls packed hpack j hj').2.2]
        exact hdec j hj h0)
    simp only [flexibleCall, if_neg hne', hpack, hagg, htr, hun, hloop]
  · intro hge
    have hnoob := decodeLoop_not_oob results packed 0 (by omega)
    cases hres : decodeLoop results packed 0 with
    | ok flags tr => simp [flexibleCall, if_neg hne', hpack, hagg, htr, hun, hres]
    | fail e0 tr => simp [flexibleCall, if_neg hne', hpack, hagg, htr, hun, hres]
    | oob tr => rw [hres] at hnoob; simp [LoopOut.isOob] at hnoob

/-- C9 witness: a well-formed but empty decoded response against a one-entry
queue reaches the out-of-range access. -/
theorem flexibleCall_short_response_witness :
    (flexibleCall w9Env false [w9Call]).outcome = FlexOutcome.oob := by
  have h := (flexibleCall_short_response w9Env false [w9Call] [w9Packed]
    [1] [2] [] (by simp) rfl rfl rfl rfl).1
    (by simp)
    (by intro j hj h0; exact absurd hj (by simp))
  exact h

/-- C1 counterexample: with a failing transport and one queued descriptor,
`FlexibleCall` returns with the internal call list still holding that
descriptor, and a subsequent execute with no new enqueues performs one more
transport invocation instead of zero. -/
theorem flexibleCall_retains_queue_cex :
    (flexibleCall cexEnv false [cexCall]).callsAfter ≠ [] ∧
    (flexibleCall cexEnv false
      ((flexibleCall cexEnv false [cexCall]).callsAfter)).transportCount = 1 := by
  constructor
  · intro h
    have h1 : (flexibleCall cexEnv false [cexCall]).callsAfter.length = 1 := rfl
    rw [h] at h1
    simp at h1
  · rfl

/-- C1 amended: the internal call list is cleared exactly on the outcomes
that reach the demultiplexing loop (success or per-descriptor decode
failure), after which a subsequent execute with no new enqueues performs
zero transport invocations and returns an empty result; on an encode,
aggregate-encode, transport, or aggregate-decode failure the call list is
retained (same number of descriptors, only `CallData` fields updated), so
those descriptors would be replayed by a later execute. -/
theorem flexibleCall_queue_discipline (env : MCEnv) (requireSuccess : Bool)
    (calls : List Call) :
    (calls = [] → (flexibleCall env requireSuccess calls).callsAfter = []) ∧
    (∀ e calls', calls ≠ [] → packAll calls = Except.error (e, calls') →
      (flexibleCall env requireSuccess calls).callsAfter = calls' ∧
      calls'.length = calls.length ∧
      (flexibleCall env requireSuccess calls).transportCount = 0) ∧
    (∀ packed e, calls ≠ [] → packAll calls = Except.ok packed →
      env.aggPack requireSuccess packed = Except.error e →
      (flexibleCall env requireSuccess calls).callsAfter = packed ∧
      packed.length = calls.length) ∧
    (∀ packed cd e, calls ≠ [] → packAll calls = Except.ok packed →
      env.aggPack requireSuccess packed = Except.ok cd →
      env.transport cd = Except.error e →
      (flexibleCall env requireSuccess calls).callsAfter = packed) ∧
    (∀ packed cd resp e, calls ≠ [] → packAll calls = Except.ok packed →
      env.aggPack requireSuccess packed = Except.ok cd →
      env.transport cd = Except.ok resp →
      env.aggUnpack resp = Except.error e →
      (flexibleCall env requireSuccess calls).callsAfter = packed) ∧
    (∀ packed cd resp results, calls ≠ [] → packAll calls = Except.ok packed →
      env.aggPack requireSuccess packed = Except.ok cd →
      env.transport cd = Except.ok resp →
      env.aggUnpack resp = Except.ok results →
      (decodeLoop results packed 0).isOob = false →
      (flexibleCall env requireSuccess calls).callsAfter = []) ∧
    ((flexibleCall env requireSuccess calls).callsAfter = [] →
      ∀ (env' : MCEnv) (rs' : Bool),
        flexibleCall env' rs' ((flexibleCall env requireSuccess calls).callsAfter) =
          ⟨FlexOutcome.ok [], [], 0, []⟩) := by
  refine ⟨?_, ?_, ?_, ?_, ?_, ?_, ?_⟩
  · intro h; subst h; rfl
  · intro e calls' hne hp
    have hne' : ¬ calls.length = 0 := fun h0 => hne (List.length_eq_zero.mp h0)
    refine ⟨?_, packAll_error_length calls e calls' hp, ?_⟩ <;>
      simp only [flexibleCall, if_neg hne', hp]
  · intro packed e hne hp ha
    have hne' : ¬ calls.length = 0 := fun h0 => hne (List.length_eq_zero.mp h0)
    refine ⟨?_, packAll_ok_length calls packed hp⟩
    simp only [flexibleCall, if_neg hne', hp, ha]
  · intro packed cd e hne hp ha ht
    have hne' : ¬ calls.length = 0 := fun h0 => hne (List.length_eq_zero.mp h0)
    simp only [flexibleCall, if_neg hne', hp, ha, ht]
  · intro packed cd resp e hne hp ha ht hu
    have hne' : ¬ calls.length = 0 := fun h0 => hne (List.length_eq_zero.mp h0)
    simp only [flexibleCall, if_neg hne', hp, ha, ht, hu]
  · intro packed cd resp results hne hp ha ht hu hnoob
    have hne' : ¬ calls.length = 0 := fun h0 => hne (List.length_eq_zero.mp h0)
    cases hres : decodeLoop results packed 0 with
    | ok flags tr => simp only [flexibleCall, if_neg hne', hp, ha, ht, hu, hres]
    | fail e0 tr => simp only [flexibleCall, if_neg hne', hp, ha, ht, hu, hres]
    | oob tr => rw [hres] at hnoob; simp [LoopOut.isOob] at hnoob
  · intro h env' rs'
    rw [h]
    rfl

/-- C1 amended witness: with the failing transport the queue is retained as
the packed descriptor list. -/
theorem flexibleCall_queue_discipline_witness :
    (flexibleCall cexEnv false [cexCall]).callsAfter = [cexPacked] := by
  have h := (flexibleCall_queue_discipline cexEnv false [cexCall]).2.2.2.1
    [cexPacked] [1] (MCErr.base "down") (by simp) rfl rfl rfl
  exact h

/-!
### Helper lemmas about chunking and reassembly
-/

/-- The chunking loop produces no unit for an empty list. -/
theorem goChunks_nil (C off : Nat) : goChunks C [] off = [] := by
  unfold goChunks
  simp

/-- One unfolding of the chunking loop. -/
theorem goChunks_cons (C : Nat) (l : List Address) (off : Nat)
    (hl : l ≠ []) (hC : C ≠ 0) :
    goChunks C l off = (off, l.take C) :: goChunks C (l.drop C) (off + C) := by
  conv_lhs => unfold goChunks
  rw [dif_neg]
  simp [hl, hC]

/-- Chunking never drops or duplicates addresses: the concatenation of the
chunks, in chunk order, is the original address list. -/
theorem goChunks_flatten (C : Nat) (hC : C ≠ 0) (l : List Address) (off : Nat) :
    ((goChunks C l off).map Prod.snd).flatten = l := by
  by_cases hl : l = []
  · subst hl
    simp [goChunks_nil]
  · rw [goChunks_cons C l off hl hC]
    simp only [List.map_cons, List.flatten_cons]
    rw [goChunks_flatten C hC (l.drop C) (off + C)]
    exact List.take_append_drop C l
termination_by l.length
decreasing_by
  have h0 : l.length ≠ 0 := fun h => hl (List.length_eq_zero.mp h)
  have h1 : C ≠ 0 := hC
  simp only [List.length_drop]
  omega

/-- The in-bounds writes `balances[off+j] = vals[j]` replace exactly the
segment `[off, off + vals.length)` of the array. -/
theorem writeChunk_eq (vs : List Value) :
    ∀ (arr : List (Option Value)) (off : Nat), off + vs.length ≤ arr.length →
      writeChunk arr off vs =
        arr.take off ++ vs.map some ++ arr.drop (off + vs.length) := by
  induction vs with
  | nil =>
    intro arr off _
    simp [writeChunk]
  | cons v vs ih =>
    intro arr off h
    have hoff : off < arr.length := by
      simp only [List.length_cons] at h; omega
    have htake : (arr.take off).length = off := by
      rw [List.length_take]; omega
    simp only [writeChunk]
    rw [ih (arr.set off (some v)) (off + 1)
      (by simp only [List.length_set]; simp only [List.length_cons] at h; omega)]
    rw [List.set_eq_take_cons_drop (some v) hoff]
    have h1 : (arr.take off ++ some v :: arr.drop (off + 1)).take (off + 1) =
        arr.take off ++ [some v] := by
      rw [show off + 1 = (arr.take off).length + 1 by rw [htake]]
      rw [List.take_append]
      simp
    have h2 : (arr.take off ++ some v :: arr.drop (off + 1)).drop (off + 1 + vs.length) =
        arr.drop (off + (vs.length + 1)) := by
      rw [show off + 1 + vs.length = (arr.take off).length + (vs.length + 1) by
        rw [htake]; omega]
      rw [List.drop_append]
      simp only [List.drop_succ_cons]
      rw [List.drop_drop]
      congr 1
      omega
    rw [h1, h2]
    simp only [List.length_cons, List.map_cons]
    congr 1
    rw [List.append_assoc, List.singleton_append]

/-- Running the chunk units produced for `l` at offset `off`, when every unit
succeeds with its chunk's balances, fills exactly the segment
`[off, off + l.length)` of the array with those balances in address order. -/
theorem runAll_ok (env : BBEnv) (bal : Address → Value) (C : Nat) (hC : C ≠ 0) :
    ∀ (l : List Address) (off : Nat) (arr : List (Option Value)),
      off + l.length ≤ arr.length →
      (∀ u ∈ goChunks C l off, chunkUnit env u.2 = Except.ok (u.2.map bal)) →
      runAll env (goChunks C l off) arr =
        Except.ok (arr.take off ++ l.map (fun a => some (bal a)) ++
          arr.drop (off + l.length)) := by
  intro l
  by_cases hl : l = []
  · subst hl
    intro off arr hlen _
    simp only [goChunks_nil, runAll, List.map_nil, List.length_nil, Nat.add_zero,
      List.append_nil]
    rw [List.take_append_drop]
  · intro off arr hlen horacle
    have hhead : chunkUnit env (l.take C) = Except.ok ((l.take C).map bal) :=
      horacle (off, l.take C)
        (by rw [goChunks_cons C l off hl hC]; exact List.mem_cons_self _ _)
    have htail : ∀ u ∈ goChunks C (l.drop C) (off + C),
        chunkUnit env u.2 = Except.ok (u.2.map bal) := fun u hu =>
      horacle u (by rw [goChunks_cons C l off hl hC]; exact List.mem_cons_of_mem _ hu)
    have htakelen : (l.take C).length = min C l.length := List.length_take C l
    have hwlen : off + ((l.take C).map bal).length ≤ arr.length := by
      rw [List.length_map, htakelen]; omega
    rw [goChunks_cons C l off hl hC]
    simp only [runAll, hhead]
    rw [writeChunk_eq _ arr off hwlen]
    by_cases hCl : l.length ≤ C
    · have hdrop : l.drop C = [] := List.drop_eq_nil_of_le hCl
      have htake : l.take C = l := List.take_of_length_le hCl
      rw [hdrop, goChunks_nil]
      simp only [runAll, htake, List.map_map, List.length_map]
      simp [Function.comp]
    · have hCl' : C < l.length := by omega
      have htakeC : (l.take C).length = C := by rw [htakelen]; omega
      have hABlen : (arr.take off ++ ((l.take C).map bal).map some).length = off + C := by
        simp only [List.length_append, List.length_take, List.length_map, htakeC]
        omega
      have hlen2 : off + C + (l.drop C).length ≤
          (arr.take off ++ ((l.take C).map bal).map some ++
            arr.drop (off + ((l.take C).map bal).length)).length := by
        simp only [List.length_append, List.length_take, List.length_drop,
          List.length_map, htakeC]
        omega
      rw [runAll_ok env bal C hC (l.drop C) (off + C) _ hlen2 htail]
      have hidx : off + ((l.take C).map bal).length = off + C := by
        rw [List.length_map, htakeC]
      rw [hidx]
      have hAB : arr.take off ++ ((l.take C).map bal).map some ++ arr.drop (off + C) =
          (arr.take off ++ ((l.take C).map bal).map some) ++ arr.drop (off + C) := by
        rw [List.append_assoc]
      have htk : (arr.take off ++ ((l.take C).map bal).map some ++
          arr.drop (off + C)).take (off + C) =
          arr.take off ++ ((l.take C).map bal).map some := by
        rw [hAB, ← hABlen, List.take_left]
      have hdr : (arr.take off ++ ((l.take C).map bal).map some ++
          arr.drop (off + C)).drop (off + C + (l.drop C).length) =
          arr.drop (off + l.length) := by
        rw [hAB]
        rw [show off + C + (l.drop C).length = (arr.take off ++
          ((l.take C).map bal).map some).length + (l.drop C).length by rw [hABlen]]
        rw [List.drop_append, List.drop_drop]
        congr 1
        simp only [List.length_drop]
        omega
      rw [htk, hdr]
      congr 1
      congr 1
      rw [List.append_assoc]
      congr 1
      rw [List.map_map]
      show (l.take C).map (fun a => some (bal a)) ++ (l.drop C).map (fun a => some (bal a)) =
        l.map (fun a => some (bal a))
      rw [← List.map_append, List.take_append_drop]
termination_by l => l.length
decreasing_by
  have h0 : l.length ≠ 0 := fun h => hl (List.length_eq_zero.mp h)
  simp only [List.length_drop]
  omega

/-!
### Helper lemmas about scheduling and validation
-/

/-- If every scheduled unit succeeds, no error is kept. -/
theorem firstErrSched_none (outcome : Nat → Except BBErr (List Value)) :
    ∀ (schedule : List Nat),
      (∀ k ∈ schedule, ∃ vals, outcome k = Except.ok vals) →
      firstErrSched outcome schedule = none := by
  intro schedule
  induction schedule with
  | nil => intro _; rfl
  | cons k rest ih =>
    intro h
    obtain ⟨vals, hv⟩ := h k (List.mem_cons_self k rest)
    simp only [firstErrSched, hv]
    exact ih fun j hj => h j (List.mem_cons_of_mem k hj)

/-- The error kept is the one of the first failing unit in completion order. -/
theorem firstErrSched_first (outcome : Nat → Except BBErr (List Value))
    (k : Nat) (e : BBErr) :
    ∀ (pre post : List Nat),
      (∀ j ∈ pre, ∃ vals, outcome j = Except.ok vals) →
      outcome k = Except.error e →
      firstErrSched outcome (pre ++ k :: post) = some e := by
  intro pre
  induction pre with
  | nil =>
    intro post _ hk
    simp only [List.nil_append, firstErrSched, hk]
  | cons j0 pre' ih =>
    intro post h hk
    obtain ⟨vals, hv⟩ := h j0 (List.mem_cons_self j0 pre')
    simp only [List.cons_append, firstErrSched, hv]
    exact ih post (fun j hj => h j (List.mem_cons_of_mem j0 hj)) hk

/-- In-bounds chunk units are members of the unit list. -/
theorem unitAt_mem (units : List (Nat × List Address)) (k : Nat)
    (h : k < units.length) : unitAt units k ∈ units := by
  rw [unitAt, List.getD_eq_getElem units (0, []) h]
  exact List.getElem_mem h

/-- The nil-checking walk fails on the first nil entry, naming the
sub-address at the same position. -/
theorem collectBalances_none_split :
    ∀ (vpre : List (Option Value)) (addrs : List Address) (vpost : List (Option Value)),
      (∀ v ∈ vpre, v ≠ none) →
      collectBalances addrs (vpre ++ none :: vpost) =
        Except.error (BBErr.integrityNil (addrs.getD vpre.length 0)) := by
  intro vpre
  induction vpre with
  | nil =>
    intro addrs vpost _
    simp only [List.nil_append, collectBalances, List.length_nil]
    cases addrs <;> rfl
  | cons v vpre' ih =>
    intro addrs vpost hall
    obtain ⟨b, hb⟩ : ∃ b, v = some b := by
      cases v with
      | none => exact absurd rfl (hall none (List.mem_cons_self _ _))
      | some b => exact ⟨b, rfl⟩
    subst hb
    simp only [List.cons_append, collectBalances, List.append_eq]
    rw [ih addrs.tail vpost (fun x hx => hall x (List.mem_cons_of_mem _ hx))]
    simp only [List.length_cons]
    cases addrs <;> simp [List.getD_cons_succ]

/-- C2: for every address list, chunk size `C > 0` and thread limit `L > 0`
(the thread limit bounds concurrency but does not affect the assembled
result), when every chunk unit returns the balances of its chunk,
`GetEthBalances` returns one balance per address with `result[i]` the
balance of `addresses[i]`: the partition drops no address, duplicates no
address, and each chunk's sub-results land at the chunk's original offset. -/
theorem getEthBalances_ordered (env : BBEnv) (C L : Nat) (addresses : List Address)
    (schedule : List Nat) (bal : Address → Value)
    (hC : 0 < C) (hL : 0 < L)
    (horacle : ∀ u ∈ goChunks C addresses 0, chunkUnit env u.2 = Except.ok (u.2.map bal))
    (hsched : ∀ k ∈ schedule, k < (goChunks C addresses 0).length) :
    getEthBalances env C addresses schedule =
      Except.ok (addresses.map fun a => some (bal a)) ∧
    ((goChunks C addresses 0).map Prod.snd).flatten = addresses ∧
    (∀ i, i < addresses.length →
      (addresses.map fun a => some (bal a)).getD i none =
        some (bal (addresses.getD i 0))) := by
  have hC' : C ≠ 0 := by omega
  have hnone : firstErrSched
      (fun k => chunkUnit env (unitAt (goChunks C addresses 0) k).2) schedule = none := by
    apply firstErrSched_none
    intro k hk
    exact ⟨_, horacle _ (unitAt_mem _ k (hsched k hk))⟩
  have hrun := runAll_ok env bal C hC' addresses 0 (List.replicate addresses.length none)
    (by simp) horacle
  refine ⟨?_, goChunks_flatten C hC' addresses 0, ?_⟩
  · simp only [getEthBalances, hnone, hrun]
    simp
  · intro i hi
    rw [List.getD_eq_getElem (addresses.map fun a => some (bal a)) none (by simpa using hi),
      List.getD_eq_getElem addresses 0 hi]
    simp

/-- C2 witness: five addresses in chunks of two over the identity-balance
environment come back in order. -/
theorem getEthBalances_ordered_witness :
    getEthBalances wbEnv 2 [10, 20, 30] [0, 1] =
      Except.ok [some 10, some 20, some 30] := by
  have hchunks : goChunks 2 [10, 20, 30] 0 = [(0, [10, 20]), (2, [30])] := by
    rw [goChunks_cons 2 [10, 20, 30] 0 (by simp) (by omega)]
    show (0, [10, 20]) :: goChunks 2 [30] 2 = _
    rw [goChunks_cons 2 [30] 2 (by simp) (by omega)]
    show (0, [10, 20]) :: (2, [30]) :: goChunks 2 [] 4 = _
    rw [goChunks_nil]
  have h := (getEthBalances_ordered wbEnv 2 1 [10, 20, 30] [0, 1] (fun a => a)
    (by omega) (by omega)
    (by
      intro u hu
      rw [hchunks] at hu
      simp only [List.mem_cons, List.not_mem_nil, or_false] at hu
      rcases hu with h1 | h1 <;> subst h1 <;> rfl)
    (by
      intro k hk
      rw [hchunks]
      simp only [List.mem_cons, List.not_mem_nil, or_false] at hk
      rcases hk with h1 | h1 <;> subst h1 <;> simp)).1
  exact h.trans rfl

/-- C5: if the chunk unit at position `k` of the completion order fails with
`e` and every unit completing before it succeeded, `GetEthBalances` returns
the single wrapped error `e` and no balance array: no partial results are
ever returned, and the reported error is the first one encountered among the
chunk units. -/
theorem getEthBalances_fail_fast (env : BBEnv) (C : Nat) (addresses : List Address)
    (pre post : List Nat) (k : Nat) (e : BBErr)
    (hpre : ∀ j ∈ pre, ∃ vals,
      chunkUnit env (unitAt (goChunks C addresses 0) j).2 = Except.ok vals)
    (hk : chunkUnit env (unitAt (goChunks C addresses 0) k).2 = Except.error e) :
    getEthBalances env C addresses (pre ++ k :: post) =
      Except.error (BBErr.getBalances e) := by
  have hfirst := firstErrSched_first
    (fun j => chunkUnit env (unitAt (goChunks C addresses 0) j).2) k e pre post hpre hk
  simp only [getEthBalances, hfirst]

/-- C5 witness: with a failing transport, the bulk lookup returns the first
unit's wrapped transport error and no array. -/
theorem getEthBalances_fail_fast_witness :
    getEthBalances wbFailEnv 1 [1, 2] [0, 1] =
      Except.error (BBErr.getBalances (BBErr.callBalances (BBErr.base "net"))) := by
  have hchunks : goChunks 1 [1, 2] 0 = [(0, [1]), (1, [2])] := by
    rw [goChunks_cons 1 [1, 2] 0 (by simp) (by omega)]
    show (0, [1]) :: goChunks 1 [2] 1 = _
    rw [goChunks_cons 1 [2] 1 (by simp) (by omega)]
    show (0, [1]) :: (1, [2]) :: goChunks 1 [] 2 = _
    rw [goChunks_nil]
  have h := getEthBalances_fail_fast wbFailEnv 1 [1, 2] [] [1] 0
    (BBErr.callBalances (BBErr.base "net"))
    (by intro j hj; exact absurd hj (by simp))
    (by rw [hchunks]; rfl)
  exact h

/-- C8: for a chunk whose pack, dispatch and decode all succeed, a decoded
length different from the chunk's address count yields the length-mismatch
integrity error, and (at matching length) a nil value at position
`vpre.length` yields the nil-balance integrity error naming the sub-address
at that position; both integrity errors are distinct from the transport and
decode error shapes. -/
theorem chunkUnit_integrity (env : BBEnv) (sub : List Address) (cd resp : Bytes)
    (vals : List (Option Value))
    (hp : env.pack sub [0] = Except.ok cd)
    (ht : env.transport cd = Except.ok resp)
    (hu : env.unpack resp = Except.ok vals) :
    (vals.length ≠ sub.length →
      chunkUnit env sub = Except.error (BBErr.integrityLen vals.length sub.length) ∧
      (∀ e, BBErr.integrityLen vals.length sub.length ≠ BBErr.callBalances e) ∧
      (∀ e, BBErr.integrityLen vals.length sub.length ≠ BBErr.unpackBalances e)) ∧
    (∀ vpre vpost, vals = vpre ++ none :: vpost → (∀ v ∈ vpre, v ≠ none) →
      vals.length = sub.length →
      chunkUnit env sub = Except.error (BBErr.integrityNil (sub.getD vpre.length 0)) ∧
      (∀ e, BBErr.integrityNil (sub.getD vpre.length 0) ≠ BBErr.callBalances e) ∧
      (∀ e, BBErr.integrityNil (sub.getD vpre.length 0) ≠ BBErr.unpackBalances e)) := by
  constructor
  · intro hne
    refine ⟨?_, ?_, ?_⟩
    · simp only [chunkUnit, hp, ht, hu, if_pos hne]
    · intro e h; cases h
    · intro e h; cases h
  · intro vpre vpost hsplit hall hlen
    refine ⟨?_, ?_, ?_⟩
    · have hcoll := collectBalances_none_split vpre sub vpost hall
      simp only [chunkUnit, hp, ht, hu, if_neg (by omega : ¬vals.length ≠ sub.length)]
      rw [hsplit]
      exact hcoll
    · intro e h; cases h
    · intro e h; cases h

/-- C8 witness: a decoded response `[some 5, none]` for the two-address chunk
`[10, 20]` is rejected with the nil-balance integrity error naming the
address 20 at the offending position. -/
theorem chunkUnit_integrity_witness :
    chunkUnit wbNilEnv [10, 20] = Except.error (BBErr.integrityNil 20) := by
  have h := ((chunkUnit_integrity wbNilEnv [10, 20] [] [] [some 5, none]
    rfl rfl rfl).2 [some 5] [] rfl
    (by intro v hv; simp only [List.mem_singleton] at hv; subst hv; simp)
    (by rfl)).1
  exact h.trans rfl

/-!
### Helper lemmas about the chunking loop indices

The literals below are `2^63` (9223372036854775808) and `2^64`
(18446744073709551616), the bounds of Go's 64-bit `int`.
-/

/-- Addition that stays inside the representable range does not wrap. -/
theorem wrap64_eq_self (x : Int) (h1 : -9223372036854775808 ≤ x)
    (h2 : x < 9223372036854775808) : wrap64 x = x := by
  unfold wrap64
  omega

/-- Addition that underflows the representable range wraps up by `2^64`. -/
theorem wrap64_underflow (x : Int) (h1 : -18446744073709551616 ≤ x)
    (h2 : x < -9223372036854775808) : wrap64 x = x + 18446744073709551616 := by
  unfold wrap64
  omega

/-- With a positive chunk size and no possibility of overflow
(`count + C ≤ 2^63`), the loop terminates once the fuel covers the remaining
distance: the index additions never wrap. -/
theorem loopIndices_pos_isSome (C count : Int) (hC : 0 < C)
    (hcc : count + C ≤ 9223372036854775808) :
    ∀ (fuel : Nat) (i : Int), 0 ≤ i → count - i ≤ (fuel : Int) →
      (loopIndices fuel C count i).isSome := by
  intro fuel
  induction fuel with
  | zero =>
    intro i hi h
    have hni : ¬ i < count := by omega
    simp [loopIndices, hni]
  | succ fuel ih =>
    intro i hi h
    by_cases hic : i < count
    · simp only [loopIndices, if_pos hic]
      rw [wrap64_eq_self (i + C) (by omega) (by omega)]
      have hs := ih (i + C) (by omega) (by push_cast at h ⊢; omega)
      cases hopt : loopIndices fuel C count (i + C) with
      | none => rw [hopt] at hs; simp at hs
      | some out => simp
    · simp [loopIndices, hic]

/-- With a positive chunk size and no possibility of overflow, any
terminating run visits indices that start at the initial index, advance by
exactly the chunk size each iteration, and stay below the bound. -/
theorem loopIndices_pos_spec (C count : Int) (hC : 0 < C)
    (hcc : count + C ≤ 9223372036854775808) :
    ∀ (fuel : Nat) (i : Int) (out : List Int), 0 ≤ i →
      loopIndices fuel C count i = some out →
      List.Chain' (fun a b => b = a + C) out ∧ (∀ x ∈ out, x < count) ∧
      (i < count → out.head? = some i) ∧ (¬ i < count → out = []) := by
  intro fuel
  induction fuel with
  | zero =>
    intro i out hi h
    by_cases hic : i < count
    · simp [loopIndices, hic] at h
    · simp only [loopIndices, if_neg hic, Option.some.injEq] at h
      subst h
      exact ⟨List.chain'_nil, by simp, fun hc => absurd hc hic, fun _ => rfl⟩
  | succ fuel ih =>
    intro i out hi h
    simp only [loopIndices] at h
    by_cases hic : i < count
    · rw [if_pos hic, wrap64_eq_self (i + C) (by omega) (by omega)] at h
      cases hrec : loopIndices fuel C count (i + C) with
      | none => rw [hrec] at h; simp at h
      | some out' =>
        rw [hrec] at h
        simp only [Option.map_some', Option.some.injEq] at h
        subst h
        obtain ⟨hch, hmem, hhead, hempty⟩ := ih (i + C) out' (by omega) hrec
        refine ⟨?_, ?_, fun _ => rfl, fun hc => absurd hic hc⟩
        · rw [List.chain'_cons']
          refine ⟨?_, hch⟩
          intro b hb
          by_cases hic2 : i + C < count
          · rw [hhead hic2] at hb
            simp only [Option.mem_def, Option.some.injEq] at hb
            omega
          · rw [hempty hic2] at hb
            simp at hb
        · intro x hx
          rcases List.mem_cons.mp hx with rfl | hx'
          · exact hic
          · exact hmem x hx'
    · rw [if_neg hic] at h
      simp only [Option.some.injEq] at h
      subst h
      exact ⟨List.chain'_nil, by simp, fun hc => absurd hc hic, fun _ => rfl⟩

/-- With chunk size zero and a positive count the index stays at zero and the
loop never terminates, whatever the fuel. -/
theorem loopIndices_zero_none (count : Int) (hcount : 0 < count) :
    ∀ fuel, loopIndices fuel 0 count 0 = none := by
  intro fuel
  induction fuel with
  | zero => simp [loopIndices, hcount]
  | succ fuel ih =>
    simp only [loopIndices, if_pos hcount]
    have hw : wrap64 ((0 : Int) + 0) = 0 := by unfold wrap64; decide
    rw [hw, ih]
    rfl

/-- With a negative chunk size the loop does terminate: the index descends
until the addition underflows `-2^63`, wraps to `2^63 + C`, and (for any
count at most `2^63 + C`) exits the loop.  The fuel needed from index `i` is
one more than the distance `(i + 2^63).toNat`. -/
theorem loopIndices_neg_isSome (C count : Int) (hC0 : C < 0)
    (hCmin : -9223372036854775808 ≤ C) (hcount : 0 < count)
    (hcc : count ≤ 9223372036854775808 + C) :
    ∀ (k : Nat) (i : Int), -9223372036854775808 ≤ i → i < 9223372036854775808 →
      (i + 9223372036854775808).toNat ≤ k →
      (loopIndices (k + 1) C count i).isSome := by
  intro k
  induction k with
  | zero =>
    intro i hmin hmax hmeas
    have hi : i = -9223372036854775808 := by omega
    subst hi
    by_cases hic : (-9223372036854775808 : Int) < count
    · simp only [loopIndices, if_pos hic]
      rw [wrap64_underflow (-9223372036854775808 + C) (by omega) (by omega)]
      rw [if_neg (by omega : ¬ -9223372036854775808 + C + 18446744073709551616 < count)]
      simp
    · simp [loopIndices, hic]
  | succ k ih =>
    intro i hmin hmax hmeas
    by_cases hic : i < count
    · have hstep : loopIndices (k + 1 + 1) C count i =
          (loopIndices (k + 1) C count (wrap64 (i + C))).map (fun out => i :: out) := by
        conv_lhs => rw [loopIndices]
        rw [if_pos hic]
      rw [hstep]
      by_cases hund : i + C < -9223372036854775808
      · rw [wrap64_underflow (i + C) (by omega) (by omega)]
        have hterm : loopIndices (k + 1) C count (i + C + 18446744073709551616) =
            some [] := by
          conv_lhs => rw [loopIndices]
          rw [if_neg (by omega : ¬ i + C + 18446744073709551616 < count)]
        rw [hterm]
        rfl
      · rw [wrap64_eq_self (i + C) (by omega) (by omega)]
        have hs := ih (i + C) (by omega) (by omega) (by omega)
        cases hopt : loopIndices (k + 1) C count (i + C) with
        | none => rw [hopt] at hs; simp at hs
        | some out => rfl
    · simp [loopIndices, hic]

/-- With chunk size `-1` and one address, the loop is still running while the
fuel is at most the distance to the underflow point. -/
theorem loopIndices_neg_running :
    ∀ (fuel : Nat) (i : Int), i < 1 → -9223372036854775808 ≤ i →
      (fuel : Int) ≤ i + 9223372036854775808 →
      loopIndices fuel (-1) 1 i = none := by
  intro fuel
  induction fuel with
  | zero =>
    intro i hi _ _
    simp [loopIndices, hi]
  | succ fuel ih =>
    intro i hi hmin hfuel
    simp only [loopIndices, if_pos hi]
    have hfuel' : (fuel : Int) + 1 ≤ i + 9223372036854775808 := by push_cast at hfuel; omega
    rw [wrap64_eq_self (i + -1) (by omega) (by omega)]
    rw [ih (i + -1) (by omega) (by omega) (by omega)]
    rfl

/-- C10 counterexample: with chunk size `-1` (negative) and a single-entry
list, the loop of `GetEthBalances` does terminate — the index underflows
Go's 64-bit `int` after `2^63` decrements, wraps to `2^63 - 1 ≥ count`, and
exits at iteration `2^63 + 1` — while it is indeed still running at fuel
`2^63`.  This refutes "with a non-empty address list and chunk size zero or
negative the loop never terminates" for the negative case. -/
theorem loopIndices_neg_chunk_cex :
    (loopIndices (9223372036854775808 + 1) (-1) 1 0).isSome = true ∧
    loopIndices 9223372036854775808 (-1) 1 0 = none := by
  constructor
  · exact loopIndices_neg_isSome (-1) 1 (by norm_num) (by norm_num) (by norm_num)
      (by norm_num) 9223372036854775808 0 (by norm_num) (by norm_num) (by omega)
  · exact loopIndices_neg_running 9223372036854775808 0 (by norm_num) (by norm_num)
      (by norm_num)

/-- C10 amended: the chunking loop `for i := 0; i < count; i += C` over Go's
wrapping 64-bit `int` terminates when the chunk size is strictly positive
and no index addition can overflow (`count + C ≤ 2^63`, always true for a
real list length and batch size), the index starting at 0 and strictly
increasing by the chunk size while below the list length; with chunk size
zero and a non-empty list the loop never terminates; with a negative chunk
size the loop also terminates — only after the index wraps around the
64-bit lower bound, about `2^63` iterations later (and, not modelled here,
the first spawned chunk unit would already panic in Go on the negative
slice bound `addresses[i:max]`). -/
theorem loopIndices_termination_wrap (C count : Int) :
    (0 < C → 0 ≤ count → count + C ≤ 9223372036854775808 →
      ∃ fuel out, loopIndices fuel C count 0 = some out ∧
        List.Chain' (fun a b => b = a + C) out ∧ (∀ x ∈ out, x < count) ∧
        (0 < count → out.head? = some 0)) ∧
    (C = 0 → 0 < count → ∀ fuel, loopIndices fuel C count 0 = none) ∧
    (C < 0 → -9223372036854775808 ≤ C → 0 < count →
      count ≤ 9223372036854775808 + C →
      (loopIndices (9223372036854775808 + 1) C count 0).isSome = true) := by
  refine ⟨?_, ?_, ?_⟩
  · intro hC hcount hcc
    have hs := loopIndices_pos_isSome C count hC hcc count.toNat 0 (by omega) (by omega)
    obtain ⟨out, hout⟩ := Option.isSome_iff_exists.mp hs
    obtain ⟨hch, hmem, hhead, _⟩ :=
      loopIndices_pos_spec C count hC hcc count.toNat 0 out (by omega) hout
    exact ⟨count.toNat, out, hout, hch, hmem, fun hc => hhead hc⟩
  · intro hC hcount fuel
    subst hC
    exact loopIndices_zero_none count hcount fuel
  · intro hC hCmin hcount hcc
    exact loopIndices_neg_isSome C count hC hCmin hcount hcc
      9223372036854775808 0 (by norm_num) (by norm_num) (by omega)

/-- C10 amended witness: chunk size 2 over five entries terminates visiting
increasing indices; chunk size 0 over three entries never terminates; chunk
size -1 over one entry terminates within `2^63 + 1` iterations. -/
theorem loopIndices_termination_wrap_witness :
    (∃ fuel out, loopIndices fuel 2 5 0 = some out ∧
      List.Chain' (fun a b => b = a + 2) out ∧ (∀ x ∈ out, x < 5) ∧
      ((0 : Int) < 5 → out.head? = some 0)) ∧
    (∀ fuel, loopIndices fuel 0 3 0 = none) ∧
    ((loopIndices (9223372036854775808 + 1) (-1) 1 0).isSome = true) :=
  ⟨(loopIndices_termination_wrap 2 5).1 (by norm_num) (by norm_num) (by norm_num),
    (loopIndices_termination_wrap 0 3).2.1 rfl (by norm_num),
    (loopIndices_termination_wrap (-1) 1).2.2 (by norm_num) (by norm_num)
      (by norm_num) (by norm_num)⟩

end BatchQuery
